import Mathlib

/-!
Verification of the dice probability-stream repository.

Shallow embedding of the repository's core logic:
* `utils/snapshot.py` — counts normalisation, derived statistics
  (proportions, chi-square, max absolute deviation), write cadence and
  row construction (`maybe_write`);
* `consumers/stream_consumer.py` — the aggregator (`process_event`,
  cumulative counts and total `n`);
* `tools/analyze_snapshots.py` — run segmentation, fairness checkpoint
  and per-run summary of the persisted log.

Python floats are modelled as exact rationals (ℚ); Python ints as ℤ.
The CSV log is modelled as a list of rows; the `ts` timestamp column
(wall-clock time) is omitted, as no verified claim depends on it.
-/

namespace DiceStream

/-! ### utils/snapshot.py -/

/-- A value passed as `counts`: either a Python dict keyed by int face
(modelled by its lookup function, `none` = key absent), or an ordered
iterable of ints. -/
inductive CountsInput where
  | dict (get : Int → Option Int)
  | seq (vals : List Int)

/-- `Faces = range(1, 7)`. -/
def Faces : List Int := [1, 2, 3, 4, 5, 6]

/-- `_counts_vec`: normalise counts into `[c1..c6]`.  A dict is read with
`counts.get(i, 0)` for `i` in `Faces`; any other iterable must have
exactly 6 elements or a `ValueError` is raised. -/
def _counts_vec : CountsInput → Except String (List Int)
  | .dict g => .ok (Faces.map (fun i => (g i).getD 0))
  | .seq vals =>
      if vals.length ≠ 6 then
        .error ("Expected 6 counts, got " ++ toString vals.length)
      else
        .ok vals

/-- `_proportions`: cumulative proportions `p_i = c_i / n`; all zero when
`n <= 0`. -/
def _proportions (counts : CountsInput) (n : Int) : Except String (List ℚ) :=
  if n ≤ 0 then .ok (List.replicate 6 0)
  else do
    let vec ← _counts_vec counts
    .ok (vec.map (fun c : Int => (c : ℚ) / (n : ℚ)))

/-- `_chi2`: Pearson chi-square against a fair die (`expected = n/6`);
`0` when `n <= 0`. -/
def _chi2 (counts : CountsInput) (n : Int) : Except String ℚ :=
  if n ≤ 0 then .ok 0
  else do
    let vec ← _counts_vec counts
    let expect : ℚ := (n : ℚ) / 6
    .ok ((vec.map (fun c : Int => ((c : ℚ) - expect) ^ 2 / expect)).sum)

/-- `_max_abs_dev`: `max(abs(p - 1/6) for p in props) if props else 0.0`. -/
def _max_abs_dev (props : List ℚ) : ℚ :=
  match props.map (fun p => |p - (1 : ℚ) / 6|) with
  | [] => 0
  | d :: ds => ds.foldl max d

/-- Python 3 `round` to an integer: round-half-to-even. -/
def pyRoundInt (x : ℚ) : Int :=
  if x - ⌊x⌋ < 1 / 2 then ⌊x⌋
  else if x - ⌊x⌋ > 1 / 2 then ⌊x⌋ + 1
  else if ⌊x⌋ % 2 = 0 then ⌊x⌋ else ⌊x⌋ + 1

/-- Python `round(x, 6)`. -/
def round6 (x : ℚ) : ℚ := (pyRoundInt (x * 1000000) : ℚ) / 1000000

/-- One persisted snapshot row (the `ts` column omitted). -/
structure SnapshotRow where
  n : Int
  max_abs_dev : ℚ
  chi2 : ℚ
  p1 : ℚ
  p2 : ℚ
  p3 : ℚ
  p4 : ℚ
  p5 : ℚ
  p6 : ℚ
  c1 : Int
  c2 : Int
  c3 : Int
  c4 : Int
  c5 : Int
  c6 : Int
deriving DecidableEq, Repr

/-- The row-building part of `maybe_write`: normalise counts, derive
statistics, and assemble the row dict.  `max_abs_dev` and `chi2` are
passed through `round(·, 6)`; the proportions and counts are written
as computed. -/
def buildRow (n : Int) (counts : CountsInput) : Except String SnapshotRow := do
  let vec ← _counts_vec counts
  let ps ← _proportions (.seq vec) n
  let chi ← _chi2 (.seq vec) n
  .ok { n := n
        max_abs_dev := round6 (_max_abs_dev ps)
        chi2 := round6 chi
        p1 := ps.getD 0 0, p2 := ps.getD 1 0, p3 := ps.getD 2 0
        p4 := ps.getD 3 0, p5 := ps.getD 4 0, p6 := ps.getD 5 0
        c1 := vec.getD 0 0, c2 := vec.getD 1 0, c3 := vec.getD 2 0
        c4 := vec.getD 3 0, c5 := vec.getD 4 0, c6 := vec.getD 5 0 }

/-- `maybe_write`: return unchanged unless `interval > 0` and
`n % interval == 0`; otherwise append one snapshot row to the log. -/
def maybe_write (interval : Int) (n : Int) (counts : CountsInput)
    (log : List SnapshotRow) : Except String (List SnapshotRow) :=
  if interval ≤ 0 ∨ n % interval ≠ 0 then .ok log
  else do
    let row ← buildRow n counts
    .ok (log ++ [row])

/-! ### consumers/stream_consumer.py -/

/-- A Python value as inspected by `process_event`. -/
inductive PyVal where
  | int (i : Int)
  | str (s : String)
  | noneVal
  | other
deriving DecidableEq, Repr

/-- A Python object passed to `process_event`: whether it is a dict, and
the results of `event.get("event_type")` and `event.get("outcome")`
(`noneVal` when the key is absent; irrelevant when not a dict). -/
structure PyEvent where
  isDict : Bool
  event_type : PyVal
  outcome : PyVal
deriving DecidableEq, Repr

/-- The consumer's cumulative state: per-face counts (face `f` stored at
index `f - 1`) and total rolls `n`. -/
structure ConsumerState where
  counts : Fin 6 → Nat
  n : Nat

/-- `init_counts`: every face mapped to 0. -/
def init_counts : Fin 6 → Nat := fun _ => 0

/-- The consumer's starting state. -/
def initState : ConsumerState := { counts := init_counts, n := 0 }

/-- `StreamConsumer.process_event`: if the event is a dict with
`event_type == "dice"` and an int outcome in 1..6, increment that face's
count and `n`; otherwise do nothing. -/
def process_event (s : ConsumerState) (e : PyEvent) : ConsumerState :=
  if e.isDict ∧ e.event_type = PyVal.str "dice" then
    match e.outcome with
    | PyVal.int o =>
        if h : 1 ≤ o ∧ o ≤ 6 then
          { counts := Function.update s.counts ⟨(o - 1).toNat, by omega⟩
              (s.counts ⟨(o - 1).toNat, by omega⟩ + 1)
            n := s.n + 1 }
        else s
    | _ => s
  else s

/-- Folding `process_event` over a list of events. -/
def processAll (s : ConsumerState) (es : List PyEvent) : ConsumerState :=
  es.foldl process_event s

/-- A well-formed dice event: a dict with `event_type == "dice"` and an
int outcome in 1..6. -/
def validDice (e : PyEvent) : Bool :=
  e.isDict && decide (e.event_type = PyVal.str "dice") &&
    (match e.outcome with
     | PyVal.int o => decide (1 ≤ o) && decide (o ≤ 6)
     | _ => false)

/-! ### tools/analyze_snapshots.py -/

/-- `CHI2_CRIT_5PCT = 11.07` (chi-square critical value, df = 5). -/
def CHI2_CRIT_5PCT : ℚ := 11.07

/-- Successive differences `xs[i] - prev-element`, as produced by
`Series.diff` after the first row. -/
def diffs (prev : Int) : List Int → List Int
  | [] => []
  | y :: ys => (y - prev) :: diffs y ys

/-- `df["n"].diff().fillna(0)`: first entry 0, then successive
differences. -/
def diffFill : List Int → List Int
  | [] => []
  | x :: xs => 0 :: diffs x xs

/-- Inclusive running count of `true`s, continuing from `acc`
(`Series.cumsum` on a boolean column). -/
def cumsumB (acc : Nat) : List Bool → List Nat
  | [] => []
  | b :: bs => (acc + if b then 1 else 0) :: cumsumB (acc + if b then 1 else 0) bs

/-- `df["run"] = (df["n"].diff().fillna(0) < 0).cumsum()`. -/
def runAssign (ns : List Int) : List Nat :=
  cumsumB 0 ((diffFill ns).map (fun d => decide (d < 0)))

/-- Rows tagged with their run number, in file order. -/
def tagRuns (rows : List SnapshotRow) : List (Nat × SnapshotRow) :=
  (runAssign (rows.map (fun row => row.n))).zip rows

/-- `passes_chi2_5pct`: `chi2 < CHI2_CRIT_5PCT`. -/
def passesChi2 (row : SnapshotRow) : Bool :=
  decide (row.chi2 < CHI2_CRIT_5PCT)

/-- `first_pass`: among rows of run `r` that pass the chi-square
checkpoint, the minimum `n` (`none` when the run has no passing row,
i.e. the run is absent from the grouped frame). -/
def n_at_first_pass (tagged : List (Nat × SnapshotRow)) (r : Nat) : Option Int :=
  ((tagged.filter (fun x => decide (x.1 = r) && passesChi2 x.2)).map
    (fun x => x.2.n)).min?

/-- The left-to-right order used by `sort_values(["run", "n"])`. -/
def runNLE (a b : Nat × SnapshotRow) : Prop :=
  a.1 < b.1 ∨ (a.1 = b.1 ∧ a.2.n ≤ b.2.n)

instance : DecidableRel runNLE := fun a b => by
  unfold runNLE; infer_instance

/-- `df.sort_values(["run", "n"])`, modelled as a stable sort. -/
def sortByRunN (l : List (Nat × SnapshotRow)) : List (Nat × SnapshotRow) :=
  l.insertionSort runNLE

/-- `groupby("run").tail(1)`: keep a row iff no later row has the same
run number. -/
def lastPerRun : List (Nat × SnapshotRow) → List (Nat × SnapshotRow)
  | [] => []
  | x :: xs =>
      if xs.any (fun y => decide (y.1 = x.1)) then lastPerRun xs
      else x :: lastPerRun xs

/-- One row of `summary.csv`. -/
structure SummaryRow where
  run : Nat
  n : Int
  max_abs_dev : ℚ
  chi2 : ℚ
  p1 : ℚ
  p2 : ℚ
  p3 : ℚ
  p4 : ℚ
  p5 : ℚ
  p6 : ℚ
  n_at_first_pass : Option Int
deriving DecidableEq, Repr

/-- The summary pipeline: tag runs, take the last row per run of the
`(run, n)`-sorted frame restricted to
`{run, n, max_abs_dev, chi2, p1..p6}`, left-join `n_at_first_pass` on
`run`, and sort by `run`. -/
def summarize (rows : List SnapshotRow) : List SummaryRow :=
  let tagged := tagRuns rows
  let lpr := lastPerRun (sortByRunN tagged)
  let merged := lpr.map (fun x =>
    ({ run := x.1, n := x.2.n, max_abs_dev := x.2.max_abs_dev
       chi2 := x.2.chi2
       p1 := x.2.p1, p2 := x.2.p2, p3 := x.2.p3
       p4 := x.2.p4, p5 := x.2.p5, p6 := x.2.p6
       n_at_first_pass := n_at_first_pass tagged x.1 } : SummaryRow))
  merged.insertionSort (fun a b => a.run ≤ b.run)

/-! ### Spec-side auxiliary definitions -/

/-- Modelled from the spec: `run[i]` should equal the number of indices
`j ≤ i` at which `n[j] < n[j-1]` — the count of adjacent decreases in the
first `i + 1` entries.  (No decrease is counted at the first row.) -/
def decCount : List Int → Nat
  | a :: b :: rest => (if b < a then 1 else 0) + decCount (b :: rest)
  | _ => 0

/-! ### Helper lemmas -/

lemma _counts_vec_ok_length {c : CountsInput} {v : List Int}
    (h : _counts_vec c = .ok v) : v.length = 6 := by
  cases c with
  | dict g =>
      simp only [_counts_vec, Except.ok.injEq] at h
      subst h
      rfl
  | seq vals =>
      simp only [_counts_vec] at h
      split at h
      · exact absurd h (by simp)
      · rename_i hlen
        simp only [Except.ok.injEq] at h
        subst h
        omega

lemma _counts_vec_seq_ok {v : List Int} (h : v.length = 6) :
    _counts_vec (.seq v) = .ok v := by
  simp [_counts_vec, h]

lemma ok_bind {α β : Type} (a : α) (f : α → Except String β) :
    (Except.ok a >>= f) = f a := rfl

lemma error_bind {α β : Type} (e : String) (f : α → Except String β) :
    (Except.error e >>= f) = Except.error e := rfl

lemma _proportions_seq_ok {v : List Int} (h : v.length = 6) (n : Int) :
    _proportions (.seq v) n =
      .ok (if n ≤ 0 then List.replicate 6 0
           else v.map (fun c : Int => (c : ℚ) / (n : ℚ))) := by
  unfold _proportions
  split
  · simp_all
  · rw [_counts_vec_seq_ok h, ok_bind]

lemma _chi2_seq_ok {v : List Int} (h : v.length = 6) (n : Int) :
    _chi2 (.seq v) n =
      .ok (if n ≤ 0 then 0
           else (v.map (fun c : Int => ((c : ℚ) - (n : ℚ) / 6) ^ 2 / ((n : ℚ) / 6))).sum) := by
  unfold _chi2
  split
  · simp_all
  · rw [_counts_vec_seq_ok h, ok_bind]

lemma buildRow_ok {c : CountsInput} {v : List Int} (n : Int)
    (hv : _counts_vec c = .ok v) :
    ∃ row : SnapshotRow, buildRow n c = .ok row ∧ row.n = n := by
  have h6 := _counts_vec_ok_length hv
  unfold buildRow
  rw [hv, ok_bind, _proportions_seq_ok h6, ok_bind, _chi2_seq_ok h6, ok_bind]
  exact ⟨_, rfl, rfl⟩

lemma maybe_write_skip {interval n : Int} {c : CountsInput} {log : List SnapshotRow}
    (h : interval ≤ 0 ∨ n % interval ≠ 0) :
    maybe_write interval n c log = .ok log := by
  unfold maybe_write
  rw [if_pos h]

lemma maybe_write_app {interval n : Int} {c : CountsInput} {log : List SnapshotRow}
    {row : SnapshotRow} (h1 : 0 < interval) (h2 : n % interval = 0)
    (hrow : buildRow n c = .ok row) :
    maybe_write interval n c log = .ok (log ++ [row]) := by
  have hcond : ¬(interval ≤ 0 ∨ n % interval ≠ 0) := by
    push_neg
    exact ⟨h1, h2⟩
  unfold maybe_write
  rw [if_neg hcond, hrow, ok_bind]

/-! ### Claims -/

/-- C3: `maybe_write` appends a row iff `interval > 0` and
`n % interval == 0`; when `interval <= 0` it never writes; with
`interval = 50` it writes exactly for `n ∈ {0, 50, 100, ...}`. -/
theorem c3_write_cadence (interval n : Int) (counts : CountsInput)
    (log : List SnapshotRow) (hn : 0 ≤ n) (v : List Int)
    (hv : _counts_vec counts = .ok v) :
    ((∃ row, maybe_write interval n counts log = .ok (log ++ [row])) ↔
      (0 < interval ∧ n % interval = 0)) ∧
    (interval ≤ 0 → maybe_write interval n counts log = .ok log) ∧
    ((∃ row, maybe_write 50 n counts log = .ok (log ++ [row])) ↔
      ∃ k : ℕ, n = 50 * (k : Int)) := by
  have key : ∀ m : Int, (∃ row, maybe_write m n counts log = .ok (log ++ [row])) ↔
      (0 < m ∧ n % m = 0) := by
    intro m
    constructor
    · rintro ⟨row, hrow⟩
      by_contra hc
      have hskip : m ≤ 0 ∨ n % m ≠ 0 := by
        rcases lt_or_le 0 m with hm | hm
        · exact Or.inr (fun h0 => hc ⟨hm, h0⟩)
        · exact Or.inl hm
      rw [maybe_write_skip hskip] at hrow
      simp only [Except.ok.injEq] at hrow
      have hlen : log.length = (log ++ [row]).length := congrArg List.length hrow
      simp at hlen
    · rintro ⟨h1, h2⟩
      obtain ⟨row, hrow, -⟩ := buildRow_ok n hv
      exact ⟨row, maybe_write_app h1 h2 hrow⟩
  refine ⟨key interval, fun h => maybe_write_skip (Or.inl h), (key 50).trans ?_⟩
  constructor
  · rintro ⟨-, h⟩
    refine ⟨(n / 50).toNat, ?_⟩
    omega
  · rintro ⟨k, rfl⟩
    exact ⟨by norm_num, by omega⟩

/-- Closed instance of C3: with interval 50 and a concrete dict input,
a row is appended at `n = 100` and none at `n = 110`. -/
theorem c3_write_cadence_witness :
    (0 : Int) ≤ 100 ∧
    _counts_vec (.seq [20, 10, 20, 10, 20, 20]) = .ok [20, 10, 20, 10, 20, 20] ∧
    ((∃ row, maybe_write 50 100 (.seq [20, 10, 20, 10, 20, 20]) [] = .ok ([] ++ [row])) ↔
      ∃ k : ℕ, (100 : Int) = 50 * (k : Int)) := by
  refine ⟨by norm_num, by rfl, ?_⟩
  exact (c3_write_cadence 50 100 (.seq [20, 10, 20, 10, 20, 20]) [] (by norm_num)
    [20, 10, 20, 10, 20, 20] (by rfl)).2.2

/-- C9: at a cadence boundary, writing the same `(n, counts)` twice
appends two identical rows — the log grows by exactly 2 and is not
deduplicated. -/
theorem c9_write_not_idempotent (interval n : Int) (counts : CountsInput)
    (log : List SnapshotRow) (h1 : 0 < interval) (h2 : n % interval = 0)
    (v : List Int) (hv : _counts_vec counts = .ok v) :
    ∃ row, maybe_write interval n counts log = .ok (log ++ [row]) ∧
      maybe_write interval n counts (log ++ [row]) = .ok (log ++ [row, row]) ∧
      (log ++ [row, row]).length = log.length + 2 := by
  obtain ⟨row, hrow, -⟩ := buildRow_ok n hv
  refine ⟨row, maybe_write_app h1 h2 hrow, ?_, by simp⟩
  have h := @maybe_write_app interval n counts (log ++ [row]) row h1 h2 hrow
  simpa using h

/-- Closed instance of C9 at `interval = 50`, `n = 0`. -/
theorem c9_write_not_idempotent_witness :
    (0 : Int) < 50 ∧ (0 : Int) % 50 = 0 ∧
    ∃ row, maybe_write 50 0 (.seq [0, 0, 0, 0, 0, 0]) [] = .ok ([] ++ [row]) ∧
      maybe_write 50 0 (.seq [0, 0, 0, 0, 0, 0]) ([] ++ [row]) = .ok ([] ++ [row, row]) ∧
      ([] ++ [row, row]).length = List.length ([] : List SnapshotRow) + 2 := by
  refine ⟨by norm_num, by norm_num, ?_⟩
  exact c9_write_not_idempotent 50 0 (.seq [0, 0, 0, 0, 0, 0]) []
    (by norm_num) (by norm_num) [0, 0, 0, 0, 0, 0] (by rfl)

/-- C10: `_counts_vec` accepts a dict (missing faces count 0) or a
sequence, which raises `ValueError` exactly when its length is not 6 and
is otherwise used in order as `c1..c6`. -/
theorem c10_counts_vec_shapes :
    (∀ g : Int → Option Int, ∃ v, _counts_vec (.dict g) = .ok v ∧ v.length = 6 ∧
      ∀ j : Fin 6, v.getD (j : Nat) 0 = (g ((j : Nat) + 1 : Int)).getD 0) ∧
    (∀ vals : List Int,
      ((∃ msg, _counts_vec (.seq vals) = .error msg) ↔ vals.length ≠ 6)) ∧
    (∀ vals : List Int, vals.length = 6 → _counts_vec (.seq vals) = .ok vals) := by
  refine ⟨?_, ?_, fun vals h => _counts_vec_seq_ok h⟩
  · intro g
    refine ⟨Faces.map (fun i => (g i).getD 0), rfl, rfl, ?_⟩
    intro j
    fin_cases j <;> rfl
  · intro vals
    constructor
    · rintro ⟨msg, hmsg⟩ h6
      rw [_counts_vec_seq_ok h6] at hmsg
      exact absurd hmsg (by simp)
    · intro h6
      refine ⟨"Expected 6 counts, got " ++ toString vals.length, ?_⟩
      simp [_counts_vec, h6]

/-- Closed instance of C10: a dict missing faces 3..6 yields zeros there;
a 2-element sequence raises; a 6-element sequence is taken in order. -/
theorem c10_counts_vec_shapes_witness :
    _counts_vec (.seq [7, 8, 9, 10, 11, 12]) = .ok [7, 8, 9, 10, 11, 12] ∧
    (∃ msg, _counts_vec (.seq [1, 2]) = .error msg) := by
  exact ⟨c10_counts_vec_shapes.2.2 [7, 8, 9, 10, 11, 12] (by rfl),
    (c10_counts_vec_shapes.2.1 [1, 2]).mpr (by simp)⟩

/-! ### Max-deviation bounds (C1) -/

lemma le_foldl_max (l : List ℚ) (d : ℚ) : d ≤ l.foldl max d := by
  induction l generalizing d with
  | nil => exact le_refl d
  | cons a t ih => exact le_trans (le_max_left d a) (ih (max d a))

lemma foldl_max_le {B : ℚ} (l : List ℚ) (d : ℚ) (hd : d ≤ B)
    (hl : ∀ x ∈ l, x ≤ B) : l.foldl max d ≤ B := by
  induction l generalizing d with
  | nil => exact hd
  | cons a t ih =>
      exact ih (max d a) (max_le hd (hl a (by simp)))
        (fun x hx => hl x (by simp [hx]))

lemma mad_nonneg_le {ps : List ℚ} (h : ∀ p ∈ ps, 0 ≤ p ∧ p ≤ 1) :
    0 ≤ _max_abs_dev ps ∧ _max_abs_dev ps ≤ 5 / 6 := by
  unfold _max_abs_dev
  split
  · exact ⟨le_refl 0, by norm_num⟩
  · rename_i d ds heq
    have hall : ∀ x ∈ d :: ds, 0 ≤ x ∧ x ≤ 5 / 6 := by
      rw [← heq]
      intro x hx
      obtain ⟨p, hp, rfl⟩ := List.mem_map.mp hx
      obtain ⟨h0, h1⟩ := h p hp
      refine ⟨abs_nonneg _, ?_⟩
      rw [abs_le]
      constructor <;> linarith
    constructor
    · exact le_trans (hall d (by simp)).1 (le_foldl_max ds d)
    · exact foldl_max_le ds d (hall d (by simp)).2
        (fun x hx => (hall x (by simp [hx])).2)

lemma mad_replicate_zero : _max_abs_dev (List.replicate 6 0) = 1 / 6 := by
  simp [_max_abs_dev, max_def]

/-- C1 amended: for six non-negative counts summing to `n`, the
max-abs-deviation of the derived proportions lies in `[0, 5/6]`; when
`n = 0` all proportions are 0 and the statistic equals `1/6` (not 0: the
list of proportions is never empty, so the empty-max fallback of
`_max_abs_dev` cannot fire). -/
theorem c1_max_abs_dev_amended (counts : List Int) (n : Int)
    (h6 : counts.length = 6) (hpos : ∀ c ∈ counts, 0 ≤ c)
    (hsum : counts.sum = n) :
    ∃ ps, _proportions (.seq counts) n = .ok ps ∧
      0 ≤ _max_abs_dev ps ∧ _max_abs_dev ps ≤ 5 / 6 ∧
      (n ≤ 0 → _max_abs_dev ps = 1 / 6) := by
  rw [_proportions_seq_ok h6]
  by_cases hn : n ≤ 0
  · rw [if_pos hn]
    exact ⟨_, rfl, by rw [mad_replicate_zero]; norm_num,
      by rw [mad_replicate_zero]; norm_num, fun _ => mad_replicate_zero⟩
  · rw [if_neg hn]
    push_neg at hn
    have hcast : (0 : ℚ) < (n : ℚ) := by exact_mod_cast hn
    have hmem : ∀ p ∈ counts.map (fun x : Int => (x : ℚ) / (n : ℚ)), 0 ≤ p ∧ p ≤ 1 := by
      intro p hp
      obtain ⟨x, hx, rfl⟩ := List.mem_map.mp hp
      have h0 : (0 : Int) ≤ x := hpos x hx
      have hxn : x ≤ n := hsum ▸ List.single_le_sum hpos x hx
      constructor
      · apply div_nonneg _ (le_of_lt hcast)
        exact_mod_cast h0
      · rw [div_le_one hcast]
        exact_mod_cast hxn
    have hb := mad_nonneg_le hmem
    exact ⟨_, rfl, hb.1, hb.2, fun h0 => absurd h0 (by omega)⟩

/-- Closed instance of C1 (amended) at a fair-looking counts vector. -/
theorem c1_max_abs_dev_amended_witness :
    ∃ ps, _proportions (.seq [1, 2, 3, 1, 2, 1]) 10 = .ok ps ∧
      0 ≤ _max_abs_dev ps ∧ _max_abs_dev ps ≤ 5 / 6 ∧
      ((10 : Int) ≤ 0 → _max_abs_dev ps = 1 / 6) :=
  c1_max_abs_dev_amended [1, 2, 3, 1, 2, 1] 10 (by decide)
    (by decide) (by decide)

/-- C1 refuted as stated: at `n = 0` (all-zero counts) the statistic is
`1/6`, not 0; and without the `Σ counts = n` restriction it escapes
`[0, 5/6]` (counts `[100,0,0,0,0,0]` with `n = 10` give `59/6`). -/
theorem c1_max_abs_dev_counterexample :
    (_proportions (.seq [0, 0, 0, 0, 0, 0]) 0 = .ok (List.replicate 6 0) ∧
      _max_abs_dev (List.replicate 6 0) = 1 / 6 ∧ (1 / 6 : ℚ) ≠ 0) ∧
    (_proportions (.seq [100, 0, 0, 0, 0, 0]) 10 = .ok [10, 0, 0, 0, 0, 0] ∧
      _max_abs_dev [10, 0, 0, 0, 0, 0] = 59 / 6 ∧ ¬(59 / 6 : ℚ) ≤ 5 / 6) := by
  refine ⟨⟨rfl, mad_replicate_zero, by norm_num⟩, ⟨?_, ?_, by norm_num⟩⟩
  · rw [_proportions_seq_ok (by rfl)]
    norm_num
  · unfold _max_abs_dev
    have e1 : |(10 : ℚ) - 1 / 6| = 59 / 6 := by
      rw [abs_of_nonneg (by norm_num)]
      norm_num
    have e2 : |(0 : ℚ) - 1 / 6| = 1 / 6 := by
      rw [abs_of_nonpos (by norm_num)]
      norm_num
    simp only [List.map_cons, List.map_nil, e1, e2, List.foldl_cons, List.foldl_nil]
    norm_num [max_def]

/-! ### Rounding at write time (C8) -/

lemma pyRoundInt_intCast (k : Int) : pyRoundInt (k : ℚ) = k := by
  unfold pyRoundInt
  simp [Int.floor_intCast]

lemma round6_round6 (x : ℚ) : round6 (round6 x) = round6 x := by
  unfold round6
  rw [div_mul_cancel₀ _ (by norm_num : (1000000 : ℚ) ≠ 0), pyRoundInt_intCast]

lemma _proportions_ok_of_counts {c : CountsInput} {v : List Int}
    (hv : _counts_vec c = .ok v) (n : Int) :
    _proportions c n =
      .ok (if n ≤ 0 then List.replicate 6 0
           else v.map (fun x : Int => (x : ℚ) / (n : ℚ))) := by
  unfold _proportions
  split
  · rfl
  · rw [hv, ok_bind]

lemma getD_six {l : List ℚ} (h : l.length = 6) :
    [l.getD 0 0, l.getD 1 0, l.getD 2 0, l.getD 3 0, l.getD 4 0, l.getD 5 0] = l := by
  rcases l with _ | ⟨a, _ | ⟨b, _ | ⟨c, _ | ⟨d, _ | ⟨e, _ | ⟨f, _ | ⟨g, t⟩⟩⟩⟩⟩⟩⟩ <;>
    simp_all

/-- C8 amended: in every written row, `max_abs_dev` and `chi2` are
rounded to 6 decimal places (hence fixed by a further `round(·, 6)`),
while `p1..p6` are the exact proportions, written unrounded. -/
theorem c8_rounding_amended (n : Int) (counts : CountsInput)
    (row : SnapshotRow) (h : buildRow n counts = .ok row) :
    round6 row.max_abs_dev = row.max_abs_dev ∧
    round6 row.chi2 = row.chi2 ∧
    ∃ ps, _proportions counts n = .ok ps ∧
      [row.p1, row.p2, row.p3, row.p4, row.p5, row.p6] = ps := by
  cases hv : _counts_vec counts with
  | error e =>
      unfold buildRow at h
      rw [hv, error_bind] at h
      exact absurd h (by simp)
  | ok v =>
      have h6 := _counts_vec_ok_length hv
      unfold buildRow at h
      rw [hv, ok_bind, _proportions_seq_ok h6, ok_bind, _chi2_seq_ok h6, ok_bind] at h
      simp only [Except.ok.injEq] at h
      subst h
      refine ⟨round6_round6 _, round6_round6 _, _, _proportions_ok_of_counts hv n, ?_⟩
      apply getD_six
      split
      · rfl
      · rw [List.length_map]
        exact h6

/-- Closed instance of C8 (amended) at `n = 0`, all-zero counts. -/
theorem c8_rounding_amended_witness :
    ∃ row, buildRow 0 (.seq [0, 0, 0, 0, 0, 0]) = .ok row ∧
      round6 row.max_abs_dev = row.max_abs_dev ∧
      round6 row.chi2 = row.chi2 ∧
      ∃ ps, _proportions (.seq [0, 0, 0, 0, 0, 0]) 0 = .ok ps ∧
        [row.p1, row.p2, row.p3, row.p4, row.p5, row.p6] = ps := by
  have hv : _counts_vec (.seq [0, 0, 0, 0, 0, 0]) = .ok [0, 0, 0, 0, 0, 0] :=
    _counts_vec_seq_ok (by rfl)
  obtain ⟨row, hrow, -⟩ := buildRow_ok 0 hv
  exact ⟨row, hrow, c8_rounding_amended 0 _ row hrow⟩

/-- C8 refuted as stated: the row written at `n = 300` with counts
`[1,299,0,0,0,0]` has `p1 = 1/300`, which is not equal to its own
6-decimal rounding — `p1..p6` are not rounded at write time. -/
theorem c8_rounding_counterexample :
    ∃ row, maybe_write 50 300 (.seq [1, 299, 0, 0, 0, 0]) [] = .ok ([] ++ [row]) ∧
      row.p1 = 1 / 300 ∧ round6 row.p1 ≠ row.p1 := by
  have h6 : ([1, 299, 0, 0, 0, 0] : List Int).length = 6 := by rfl
  have hv := _counts_vec_seq_ok h6
  have hb : ∃ r, buildRow 300 (.seq [1, 299, 0, 0, 0, 0]) = .ok r ∧ r.p1 = 1 / 300 := by
    unfold buildRow
    rw [hv, ok_bind, _proportions_seq_ok h6, ok_bind, _chi2_seq_ok h6, ok_bind]
    refine ⟨_, rfl, ?_⟩
    norm_num
  obtain ⟨r, hr, hp⟩ := hb
  refine ⟨r, maybe_write_app (by decide) (by decide) hr, hp, ?_⟩
  rw [hp]
  norm_num [round6, pyRoundInt]

/-! ### Aggregator (C4, C5) -/

lemma process_event_invalid (s : ConsumerState) (e : PyEvent)
    (hf : validDice e = false) : process_event s e = s := by
  unfold process_event
  split
  · rename_i hcond
    obtain ⟨hd, ht⟩ := hcond
    unfold validDice at hf
    rw [hd, ht] at hf
    simp at hf
    cases ho : e.outcome with
    | int o =>
        rw [ho] at hf
        simp at hf
        dsimp only
        rw [dif_neg (by omega)]
    | str v => rfl
    | noneVal => rfl
    | other => rfl
  · rfl

lemma process_event_sum (s : ConsumerState) (e : PyEvent)
    (h : s.n = ∑ f : Fin 6, s.counts f) :
    (process_event s e).n = ∑ f : Fin 6, (process_event s e).counts f := by
  unfold process_event
  split
  · cases ho : e.outcome with
    | int o =>
        dsimp only
        by_cases hb : 1 ≤ o ∧ o ≤ 6
        · rw [dif_pos hb]
          simp only
          rw [Finset.sum_update_of_mem (Finset.mem_univ _)]
          rw [Finset.sum_eq_add_sum_diff_singleton
            (Finset.mem_univ (⟨(o - 1).toNat, by omega⟩ : Fin 6)) s.counts] at h
          omega
        · rw [dif_neg hb]
          exact h
    | str v => exact h
    | noneVal => exact h
    | other => exact h
  · exact h

lemma process_event_n_valid (s : ConsumerState) (e : PyEvent)
    (h : validDice e = true) : (process_event s e).n = s.n + 1 := by
  unfold validDice at h
  cases ho : e.outcome with
  | int o =>
      rw [ho] at h
      simp at h
      obtain ⟨⟨hd, ht⟩, h1, h6⟩ := h
      unfold process_event
      rw [if_pos ⟨hd, ht⟩, ho]
      dsimp only
      rw [dif_pos ⟨h1, h6⟩]
  | str v =>
      rw [ho] at h
      simp at h
  | noneVal =>
      rw [ho] at h
      simp at h
  | other =>
      rw [ho] at h
      simp at h

/-- C4: a well-formed dice event (dict, `event_type == "dice"`, int
outcome `j + 1` with `j + 1 ∈ {1..6}`) increments that face's count and
`n` by exactly 1 and touches no other face; any other event leaves the
state unchanged (and `process_event` is a total function — malformed
events never raise). -/
theorem c4_process_event (s : ConsumerState) (e : PyEvent) :
    (∀ j : Fin 6, e.isDict = true → e.event_type = PyVal.str "dice" →
      e.outcome = PyVal.int ((j : Nat) + 1 : Int) →
      (process_event s e).n = s.n + 1 ∧
      (process_event s e).counts j = s.counts j + 1 ∧
      ∀ i : Fin 6, i ≠ j → (process_event s e).counts i = s.counts i) ∧
    (validDice e = false → process_event s e = s) := by
  refine ⟨?_, process_event_invalid s e⟩
  intro j h1 h2 h3
  have hj := j.isLt
  unfold process_event
  rw [h3, if_pos (show (e.isDict = true) ∧ e.event_type = PyVal.str "dice" from ⟨h1, h2⟩)]
  dsimp only
  rw [dif_pos (show (1 : Int) ≤ ((j : Nat) : Int) + 1 ∧ ((j : Nat) : Int) + 1 ≤ 6 by omega)]
  have hidx : (⟨((((j : Nat) : Int) + 1) - 1).toNat, by omega⟩ : Fin 6) = j := by
    apply Fin.ext
    simp
  rw [hidx]
  refine ⟨rfl, Function.update_same j _ s.counts, ?_⟩
  intro i hne
  exact Function.update_noteq hne _ s.counts

/-- Closed instance of C4: a valid roll of face 3 from the initial
state, and an ignored malformed event. -/
theorem c4_process_event_witness :
    ((process_event initState ⟨true, PyVal.str "dice", PyVal.int 3⟩).n =
      initState.n + 1 ∧
     (process_event initState ⟨true, PyVal.str "dice", PyVal.int 3⟩).counts 2 =
      initState.counts 2 + 1) ∧
    process_event initState ⟨true, PyVal.str "dice", PyVal.int 7⟩ = initState := by
  constructor
  · have h := (c4_process_event initState ⟨true, PyVal.str "dice", PyVal.int 3⟩).1
      2 rfl rfl (by decide)
    exact ⟨h.1, h.2.1⟩
  · exact (c4_process_event initState ⟨true, PyVal.str "dice", PyVal.int 7⟩).2 (by decide)

lemma processAll_sum (es : List PyEvent) :
    ∀ s : ConsumerState, s.n = ∑ f : Fin 6, s.counts f →
      (processAll s es).n = ∑ f : Fin 6, (processAll s es).counts f := by
  induction es with
  | nil => exact fun s h => h
  | cons e t ih =>
      intro s h
      exact ih (process_event s e) (process_event_sum s e h)

lemma processAll_n_valid (es : List PyEvent) :
    ∀ s : ConsumerState, (∀ e ∈ es, validDice e = true) →
      (processAll s es).n = s.n + es.length := by
  induction es with
  | nil =>
      intro s _
      rfl
  | cons e t ih =>
      intro s hv
      have he : validDice e = true := hv e (by simp)
      have ht : ∀ x ∈ t, validDice x = true := fun x hx => hv x (by simp [hx])
      show (processAll (process_event s e) t).n = s.n + (e :: t).length
      rw [ih (process_event s e) ht, process_event_n_valid s e he]
      simp
      omega

/-- C5: from the initial state, after any event sequence
`n = Σ counts`, and after `k` valid dice events `n = k`. -/
theorem c5_conservation (es : List PyEvent) :
    (processAll initState es).n = ∑ f : Fin 6, (processAll initState es).counts f ∧
    ((∀ e ∈ es, validDice e = true) → (processAll initState es).n = es.length) := by
  constructor
  · exact processAll_sum es initState (by simp [initState, init_counts])
  · intro hv
    rw [processAll_n_valid es initState hv]
    simp [initState]

/-- Closed instance of C5: one valid roll gives `n = 1 = Σ counts`. -/
theorem c5_conservation_witness :
    (processAll initState [⟨true, PyVal.str "dice", PyVal.int 3⟩]).n =
      ∑ f : Fin 6, (processAll initState [⟨true, PyVal.str "dice", PyVal.int 3⟩]).counts f ∧
    (processAll initState [⟨true, PyVal.str "dice", PyVal.int 3⟩]).n = 1 := by
  have h := c5_conservation [⟨true, PyVal.str "dice", PyVal.int 3⟩]
  exact ⟨h.1, h.2 (by decide)⟩

/-! ### Run segmentation (C2) -/

lemma cumsumB_length (acc : Nat) (bs : List Bool) :
    (cumsumB acc bs).length = bs.length := by
  induction bs generalizing acc with
  | nil => rfl
  | cons b t ih => simp [cumsumB, ih]

lemma cumsumB_get (bs : List Bool) :
    ∀ (acc i : Nat) (h : i < (cumsumB acc bs).length),
      (cumsumB acc bs).get ⟨i, h⟩ = acc + (bs.take (i + 1)).countP (fun b => b) := by
  induction bs with
  | nil =>
      intro acc i h
      exact absurd h (by simp [cumsumB])
  | cons b t ih =>
      intro acc i h
      cases i with
      | zero =>
          show acc + (if b then 1 else 0) = _
          cases b <;> simp [List.countP_cons]
      | succ k =>
          have hk : k < (cumsumB (acc + if b then 1 else 0) t).length := by
            have := h
            simp [cumsumB, cumsumB_length] at this ⊢
            omega
          show (cumsumB (acc + if b then 1 else 0) t).get ⟨k, hk⟩ = _
          rw [ih (acc + if b then 1 else 0) k hk]
          cases b with
          | false => simp [List.countP_cons]
          | true =>
              simp [List.countP_cons]
              omega

lemma diffs_countP (xs : List Int) :
    ∀ (prev : Int) (j : Nat),
      ((diffs prev xs).take j).countP (fun d => decide (d < 0)) =
        decCount ((prev :: xs).take (j + 1)) := by
  induction xs with
  | nil =>
      intro prev j
      simp [diffs, decCount]
  | cons y ys ih =>
      intro prev j
      cases j with
      | zero => simp [decCount]
      | succ k =>
          show ((y - prev) :: (diffs y ys).take k).countP (fun d => decide (d < 0)) = _
          rw [List.countP_cons, ih y k]
          show _ = decCount (prev :: y :: ys.take k)
          show _ = (if y < prev then 1 else 0) + decCount (y :: ys.take k)
          have : ((y :: ys).take (k + 1)) = y :: ys.take k := rfl
          rw [this]
          by_cases hy : y < prev
          · have hd : y - prev < 0 := by omega
            simp [hy, hd]
            omega
          · have hd : ¬(y - prev < 0) := by omega
            simp [hy, hd]

lemma diffs_length (prev : Int) (xs : List Int) :
    (diffs prev xs).length = xs.length := by
  induction xs generalizing prev with
  | nil => rfl
  | cons y ys ih => simp [diffs, ih]

lemma runAssign_length (ns : List Int) : (runAssign ns).length = ns.length := by
  cases ns with
  | nil => rfl
  | cons x xs =>
      simp [runAssign, cumsumB_length, diffFill, diffs_length]

/-- C2: the offline analyzer's `run` column is the inclusive running
count of decrease points: `run[i]` equals the number of indices
`j ≤ i` with `n[j] < n[j-1]` (none counted at the first row); on
`[10,20,30,5,15,25,8]` it yields `[0,0,0,1,1,1,2]`. -/
theorem c2_run_segmentation :
    (∀ (ns : List Int) (i : Nat) (h : i < (runAssign ns).length),
      (runAssign ns).get ⟨i, h⟩ = decCount (ns.take (i + 1))) ∧
    runAssign [10, 20, 30, 5, 15, 25, 8] = [0, 0, 0, 1, 1, 1, 2] := by
  constructor
  · intro ns i h
    cases ns with
    | nil => exact absurd h (by simp [runAssign, cumsumB])
    | cons x xs =>
        unfold runAssign
        rw [cumsumB_get]
        show 0 + (((0 :: diffs x xs).map fun d => decide (d < 0)).take (i + 1)).countP
            (fun b => b) = _
        rw [← List.map_take, List.countP_map]
        cases i with
        | zero =>
            simp [decCount, Function.comp]
        | succ k =>
            rw [Nat.zero_add]
            have hstep : ((0 :: diffs x xs).take (k + 1 + 1)) =
                0 :: (diffs x xs).take (k + 1) := rfl
            rw [hstep, List.countP_cons]
            have h0 : (((fun b => b) ∘ fun d : Int => decide (d < 0)) 0) = false := by
              simp
            rw [h0]
            have hpe : ((fun b => b) ∘ fun d : Int => decide (d < 0)) =
                (fun d : Int => decide (d < 0)) := by
              funext d
              simp
            rw [hpe, diffs_countP xs x (k + 1)]
            simp
  · decide

/-- Closed instance of C2 at index 3 of the spec's example sequence. -/
theorem c2_run_segmentation_witness :
    (runAssign [10, 20, 30, 5, 15, 25, 8]).get ⟨3, by decide⟩ =
      decCount ([10, 20, 30, 5, 15, 25, 8].take 4) :=
  c2_run_segmentation.1 [10, 20, 30, 5, 15, 25, 8] 3 (by decide)

/-! ### Fairness checkpoint (C6) -/

lemma int_min?_some (xs : List Int) (m : Int) :
    xs.min? = some m ↔ m ∈ xs ∧ ∀ b ∈ xs, m ≤ b := by
  haveI : Std.Antisymm (fun x1 x2 : Int => x1 ≤ x2) :=
    ⟨fun h1 h2 => le_antisymm h1 h2⟩
  apply List.min?_eq_some_iff
  · exact fun a => le_refl a
  · exact fun a b => min_choice a b
  · exact fun a b c => le_min_iff

/-- C6: a row passes the fairness checkpoint iff `chi2 < 11.07`
(strict, fixed constant); per run, `n_at_first_pass` is the minimum `n`
among passing rows, and is absent (`none`) — not zero — when the run has
no passing row. -/
theorem c6_fairness_checkpoint (rows : List SnapshotRow) (r : Nat) :
    (n_at_first_pass (tagRuns rows) r = none ↔
      ∀ x ∈ tagRuns rows, x.1 = r → ¬(x.2.chi2 < (11.07 : ℚ))) ∧
    (∀ m : Int, n_at_first_pass (tagRuns rows) r = some m ↔
      ((∃ x ∈ tagRuns rows, x.1 = r ∧ x.2.chi2 < (11.07 : ℚ) ∧ x.2.n = m) ∧
        ∀ x ∈ tagRuns rows, x.1 = r → x.2.chi2 < (11.07 : ℚ) → m ≤ x.2.n)) := by
  unfold n_at_first_pass
  constructor
  · rw [List.min?_eq_none_iff, List.map_eq_nil_iff, List.filter_eq_nil_iff]
    simp [passesChi2, CHI2_CRIT_5PCT]
  · intro m
    rw [int_min?_some]
    simp only [List.mem_map, List.mem_filter, Bool.and_eq_true, decide_eq_true_eq,
      passesChi2, CHI2_CRIT_5PCT]
    constructor
    · rintro ⟨⟨x, ⟨hx, hr, hc⟩, hn⟩, hmin⟩
      refine ⟨⟨x, hx, hr, hc, hn⟩, ?_⟩
      intro y hy hyr hyc
      exact hmin y.2.n ⟨y, ⟨hy, hyr, hyc⟩, rfl⟩
    · rintro ⟨⟨x, hx, hr, hc, hn⟩, hmin⟩
      refine ⟨⟨x, ⟨hx, hr, hc⟩, hn⟩, ?_⟩
      rintro b ⟨y, ⟨hy, hyr, hyc⟩, rfl⟩
      exact hmin y hy hyr hyc

/-- Closed instance of C6: the spec's example run with `chi2` values
`[20, 9, 12, 5]` first passes at the second row, so `n_at_first_pass`
is that row's `n = 100` (the minimum among passing rows). -/
theorem c6_fairness_checkpoint_witness :
    n_at_first_pass (tagRuns
      [⟨50, 0, 20, 0, 0, 0, 0, 0, 0, 0, 0, 0, 0, 0, 0⟩,
       ⟨100, 0, 9, 0, 0, 0, 0, 0, 0, 0, 0, 0, 0, 0, 0⟩,
       ⟨150, 0, 12, 0, 0, 0, 0, 0, 0, 0, 0, 0, 0, 0, 0⟩,
       ⟨200, 0, 5, 0, 0, 0, 0, 0, 0, 0, 0, 0, 0, 0, 0⟩]) 0 = some 100 := by
  apply ((c6_fairness_checkpoint
    [⟨50, 0, 20, 0, 0, 0, 0, 0, 0, 0, 0, 0, 0, 0, 0⟩,
     ⟨100, 0, 9, 0, 0, 0, 0, 0, 0, 0, 0, 0, 0, 0, 0⟩,
     ⟨150, 0, 12, 0, 0, 0, 0, 0, 0, 0, 0, 0, 0, 0, 0⟩,
     ⟨200, 0, 5, 0, 0, 0, 0, 0, 0, 0, 0, 0, 0, 0, 0⟩] 0).2 100).mpr
  have htag : tagRuns
      [⟨50, 0, 20, 0, 0, 0, 0, 0, 0, 0, 0, 0, 0, 0, 0⟩,
       ⟨100, 0, 9, 0, 0, 0, 0, 0, 0, 0, 0, 0, 0, 0, 0⟩,
       ⟨150, 0, 12, 0, 0, 0, 0, 0, 0, 0, 0, 0, 0, 0, 0⟩,
       ⟨200, 0, 5, 0, 0, 0, 0, 0, 0, 0, 0, 0, 0, 0, 0⟩] =
      [(0, ⟨50, 0, 20, 0, 0, 0, 0, 0, 0, 0, 0, 0, 0, 0, 0⟩),
       (0, ⟨100, 0, 9, 0, 0, 0, 0, 0, 0, 0, 0, 0, 0, 0, 0⟩),
       (0, ⟨150, 0, 12, 0, 0, 0, 0, 0, 0, 0, 0, 0, 0, 0, 0⟩),
       (0, ⟨200, 0, 5, 0, 0, 0, 0, 0, 0, 0, 0, 0, 0, 0, 0⟩)] := rfl
  rw [htag]
  constructor
  · refine ⟨(0, ⟨100, 0, 9, 0, 0, 0, 0, 0, 0, 0, 0, 0, 0, 0, 0⟩), by simp, rfl, by norm_num, rfl⟩
  · intro x hx
    simp only [List.mem_cons, List.not_mem_nil, or_false] at hx
    rcases hx with h | h | h | h <;> subst h
    · intro _ hc
      exact absurd hc (by norm_num)
    · intro _ _
      norm_num
    · intro _ _
      norm_num
    · intro _ _
      norm_num

/-! ### Per-run summary (C7) -/

lemma runNLE_trans : Transitive runNLE := by
  rintro a b c (h1 | ⟨h1, h1n⟩) (h2 | ⟨h2, h2n⟩)
  · exact Or.inl (lt_trans h1 h2)
  · exact Or.inl (h2 ▸ h1)
  · exact Or.inl (h1 ▸ h2)
  · exact Or.inr ⟨h1.trans h2, le_trans h1n h2n⟩

instance : IsTrans (Nat × SnapshotRow) runNLE :=
  ⟨fun _ _ _ hab hbc => runNLE_trans hab hbc⟩

lemma chain_aux : ∀ (rest : List SnapshotRow) (prev : SnapshotRow) (acc : Nat),
    List.Chain runNLE (acc, prev)
      ((cumsumB acc ((diffs prev.n (rest.map (fun row => row.n))).map
        (fun d => decide (d < 0)))).zip rest) := by
  intro rest
  induction rest with
  | nil =>
      intro prev acc
      exact List.Chain.nil
  | cons y ys ih =>
      intro prev acc
      show List.Chain runNLE (acc, prev)
        ((cumsumB acc ((decide (y.n - prev.n < 0)) ::
          ((diffs y.n (ys.map (fun row => row.n))).map (fun d => decide (d < 0))))).zip (y :: ys))
      by_cases hd : y.n - prev.n < 0
      · have hb : decide (y.n - prev.n < 0) = true := by simp [hd]
        rw [hb]
        show List.Chain runNLE (acc, prev) ((acc + 1, y) ::
          ((cumsumB (acc + 1) _).zip ys))
        exact List.Chain.cons (Or.inl (by omega)) (ih y (acc + 1))
      · have hb : decide (y.n - prev.n < 0) = false := by simp [hd]
        rw [hb]
        show List.Chain runNLE (acc, prev) ((acc + 0, y) ::
          ((cumsumB (acc + 0) _).zip ys))
        have hk : acc + 0 = acc := rfl
        rw [hk]
        exact List.Chain.cons (Or.inr ⟨rfl, (by omega : prev.n ≤ y.n)⟩) (ih y acc)

lemma tagRuns_pairwise (rows : List SnapshotRow) :
    List.Pairwise runNLE (tagRuns rows) := by
  rw [← List.chain'_iff_pairwise]
  cases rows with
  | nil => exact List.chain'_nil
  | cons r0 rest =>
      show List.Chain' runNLE ((0, r0) ::
        ((cumsumB 0 ((diffs r0.n (rest.map (fun row => row.n))).map
          (fun d => decide (d < 0)))).zip rest))
      exact chain_aux rest r0 0

lemma lastPerRun_subset : ∀ (l : List (Nat × SnapshotRow)) (y : Nat × SnapshotRow),
    y ∈ lastPerRun l → y ∈ l := by
  intro l
  induction l with
  | nil =>
      intro y hy
      exact absurd hy (by simp [lastPerRun])
  | cons x xs ih =>
      intro y hy
      unfold lastPerRun at hy
      split at hy
      · exact List.mem_cons_of_mem x (ih y hy)
      · rcases List.mem_cons.mp hy with h | h
        · exact h ▸ List.mem_cons_self x xs
        · exact List.mem_cons_of_mem x (ih y h)

lemma lastPerRun_keys_sorted : ∀ (l : List (Nat × SnapshotRow)),
    List.Pairwise (fun a b : Nat × SnapshotRow => a.1 ≤ b.1) l →
    List.Pairwise (fun a b : Nat × SnapshotRow => a.1 < b.1) (lastPerRun l) := by
  intro l
  induction l with
  | nil =>
      intro _
      simp [lastPerRun]
  | cons x xs ih =>
      intro hp
      obtain ⟨hhead, htail⟩ := List.pairwise_cons.mp hp
      unfold lastPerRun
      split
      · exact ih htail
      · rename_i hdup
        refine List.pairwise_cons.mpr ⟨?_, ih htail⟩
        intro y hy
        have hyin := lastPerRun_subset xs y hy
        have hle := hhead y hyin
        have hne : y.1 ≠ x.1 := by
          intro hk
          exact hdup (List.any_eq_true.mpr ⟨y, hyin, by simp [hk]⟩)
        omega

lemma lastPerRun_covers : ∀ (l : List (Nat × SnapshotRow)) (x : Nat × SnapshotRow),
    x ∈ l → ∃ y ∈ lastPerRun l, y.1 = x.1 := by
  intro l
  induction l with
  | nil =>
      intro x hx
      exact absurd hx (by simp)
  | cons a xs ih =>
      intro x hx
      unfold lastPerRun
      split
      · rename_i hdup
        rcases List.mem_cons.mp hx with h | h
        · subst h
          simp only [List.any_eq_true, decide_eq_true_eq] at hdup
          obtain ⟨z, hz, hzk⟩ := hdup
          obtain ⟨y, hy, hyk⟩ := ih z hz
          exact ⟨y, hy, by rw [hyk, hzk]⟩
        · exact ih x h
      · rename_i hdup
        rcases List.mem_cons.mp hx with h | h
        · subst h
          exact ⟨x, List.mem_cons_self _ _, rfl⟩
        · obtain ⟨y, hy, hyk⟩ := ih x h
          exact ⟨y, List.mem_cons_of_mem a hy, hyk⟩

lemma lastPerRun_decomp : ∀ (l : List (Nat × SnapshotRow)) (y : Nat × SnapshotRow),
    y ∈ lastPerRun l → ∃ l1 l2, l = l1 ++ y :: l2 ∧ ∀ z ∈ l2, z.1 ≠ y.1 := by
  intro l
  induction l with
  | nil =>
      intro y hy
      exact absurd hy (by simp [lastPerRun])
  | cons x xs ih =>
      intro y hy
      unfold lastPerRun at hy
      split at hy
      · obtain ⟨l1, l2, heq, hno⟩ := ih y hy
        exact ⟨x :: l1, l2, by rw [heq]; rfl, hno⟩
      · rename_i hdup
        rcases List.mem_cons.mp hy with h | h
        · subst h
          refine ⟨[], xs, rfl, ?_⟩
          intro z hz hzk
          exact hdup (List.any_eq_true.mpr ⟨z, hz, by simp [hzk]⟩)
        · obtain ⟨l1, l2, heq, hno⟩ := ih y h
          exact ⟨x :: l1, l2, by rw [heq]; rfl, hno⟩

lemma summarize_eq (rows : List SnapshotRow) :
    summarize rows = (lastPerRun (tagRuns rows)).map (fun x =>
      ({ run := x.1, n := x.2.n, max_abs_dev := x.2.max_abs_dev
         chi2 := x.2.chi2
         p1 := x.2.p1, p2 := x.2.p2, p3 := x.2.p3
         p4 := x.2.p4, p5 := x.2.p5, p6 := x.2.p6
         n_at_first_pass := n_at_first_pass (tagRuns rows) x.1 } : SummaryRow)) := by
  have hpair := tagRuns_pairwise rows
  have hsort1 : sortByRunN (tagRuns rows) = tagRuns rows :=
    List.Sorted.insertionSort_eq hpair
  have hkeysle : List.Pairwise (fun a b : Nat × SnapshotRow => a.1 ≤ b.1) (tagRuns rows) := by
    refine hpair.imp ?_
    rintro a b (h | ⟨h, -⟩) <;> omega
  have hkeys := lastPerRun_keys_sorted (tagRuns rows) hkeysle
  simp only [summarize]
  rw [hsort1]
  apply List.Sorted.insertionSort_eq
  rw [List.Sorted, List.pairwise_map]
  refine hkeys.imp ?_
  intro a b h
  exact le_of_lt h

/-- C7: the summary has exactly one row per run (run numbers strictly
ascending, and a run appears in the summary iff it appears in the data);
each summary row is built from the last row of its run in file order —
which also carries the maximal `n` of the run — copying the persisted
`max_abs_dev`, `chi2` and `p1..p6` fields verbatim, and left-joining
`n_at_first_pass` by run. -/
theorem c7_per_run_summary (rows : List SnapshotRow) :
    List.Pairwise (· < ·) ((summarize rows).map (fun y => y.run)) ∧
    (∀ r : Nat, (∃ x ∈ tagRuns rows, x.1 = r) ↔ (∃ y ∈ summarize rows, y.run = r)) ∧
    (∀ y ∈ summarize rows, ∃ l1 x l2,
      tagRuns rows = l1 ++ x :: l2 ∧ x.1 = y.run ∧
      (∀ z ∈ l2, z.1 ≠ y.run) ∧
      (∀ z ∈ tagRuns rows, z.1 = y.run → z.2.n ≤ x.2.n) ∧
      y.n = x.2.n ∧ y.max_abs_dev = x.2.max_abs_dev ∧ y.chi2 = x.2.chi2 ∧
      y.p1 = x.2.p1 ∧ y.p2 = x.2.p2 ∧ y.p3 = x.2.p3 ∧
      y.p4 = x.2.p4 ∧ y.p5 = x.2.p5 ∧ y.p6 = x.2.p6 ∧
      y.n_at_first_pass = n_at_first_pass (tagRuns rows) y.run) := by
  have hpair := tagRuns_pairwise rows
  have hkeysle : List.Pairwise (fun a b : Nat × SnapshotRow => a.1 ≤ b.1) (tagRuns rows) := by
    refine hpair.imp ?_
    rintro a b (h | ⟨h, -⟩) <;> omega
  have hkeys := lastPerRun_keys_sorted (tagRuns rows) hkeysle
  rw [summarize_eq rows]
  refine ⟨?_, ?_, ?_⟩
  · rw [List.map_map, List.pairwise_map]
    exact hkeys.imp (fun h => h)
  · intro r
    constructor
    · rintro ⟨x, hx, hxr⟩
      obtain ⟨y, hy, hyk⟩ := lastPerRun_covers (tagRuns rows) x hx
      exact ⟨_, List.mem_map_of_mem _ hy, by rw [← hxr, ← hyk]⟩
    · rintro ⟨y, hy, hyr⟩
      obtain ⟨z, hz, rfl⟩ := List.mem_map.mp hy
      exact ⟨z, lastPerRun_subset _ z hz, hyr⟩
  · intro y hy
    obtain ⟨z, hz, rfl⟩ := List.mem_map.mp hy
    dsimp only
    obtain ⟨l1, l2, heq, hno⟩ := lastPerRun_decomp _ z hz
    refine ⟨l1, z, l2, heq, rfl, hno, ?_, rfl, rfl, rfl, rfl, rfl, rfl, rfl, rfl, rfl, rfl⟩
    intro w hw hwk
    rw [heq] at hpair hw
    rcases List.mem_append.mp hw with h1 | h2
    · have hrel := (List.pairwise_append.mp hpair).2.2 w h1 z (List.mem_cons_self _ _)
      rcases hrel with h | ⟨-, hn⟩
      · exact absurd hwk (by omega)
      · exact hn
    · rcases List.mem_cons.mp h2 with h | h
      · rw [h]
      · exact absurd hwk (hno w h)

/-- Closed instance of C7 on a two-run log (`n` sequence `[10, 20, 5]`). -/
theorem c7_per_run_summary_witness :
    List.Pairwise (· < ·) ((summarize
      [⟨10, 0, 0, 0, 0, 0, 0, 0, 0, 0, 0, 0, 0, 0, 0⟩,
       ⟨20, 0, 0, 0, 0, 0, 0, 0, 0, 0, 0, 0, 0, 0, 0⟩,
       ⟨5, 0, 0, 0, 0, 0, 0, 0, 0, 0, 0, 0, 0, 0, 0⟩]).map (fun y => y.run)) ∧
    ((∃ x ∈ tagRuns
      [⟨10, 0, 0, 0, 0, 0, 0, 0, 0, 0, 0, 0, 0, 0, 0⟩,
       ⟨20, 0, 0, 0, 0, 0, 0, 0, 0, 0, 0, 0, 0, 0, 0⟩,
       ⟨5, 0, 0, 0, 0, 0, 0, 0, 0, 0, 0, 0, 0, 0, 0⟩], x.1 = 1) ↔
     (∃ y ∈ summarize
      [⟨10, 0, 0, 0, 0, 0, 0, 0, 0, 0, 0, 0, 0, 0, 0⟩,
       ⟨20, 0, 0, 0, 0, 0, 0, 0, 0, 0, 0, 0, 0, 0, 0⟩,
       ⟨5, 0, 0, 0, 0, 0, 0, 0, 0, 0, 0, 0, 0, 0, 0⟩], y.run = 1)) :=
  ⟨(c7_per_run_summary
      [⟨10, 0, 0, 0, 0, 0, 0, 0, 0, 0, 0, 0, 0, 0, 0⟩,
       ⟨20, 0, 0, 0, 0, 0, 0, 0, 0, 0, 0, 0, 0, 0, 0⟩,
       ⟨5, 0, 0, 0, 0, 0, 0, 0, 0, 0, 0, 0, 0, 0, 0⟩]).1,
   (c7_per_run_summary
      [⟨10, 0, 0, 0, 0, 0, 0, 0, 0, 0, 0, 0, 0, 0, 0⟩,
       ⟨20, 0, 0, 0, 0, 0, 0, 0, 0, 0, 0, 0, 0, 0, 0⟩,
       ⟨5, 0, 0, 0, 0, 0, 0, 0, 0, 0, 0, 0, 0, 0, 0⟩]).2.1 1⟩

end DiceStream
